import Mathlib

/-!
Verification of the `transformEphemeralPlugin` Babel plugin
(repository `object-reuse-transform`, file `src/unnamed/part_000`, the
variant with the four-way insertion policy that the specification
describes; `src/src/transformEphemeralPlugin.ts` is an earlier cut of the
same visitor).

The plugin is a syntax-tree rewriter.  We shallowly embed the fragment of
the Babel AST the plugin manipulates (function declarations with optional
parameter defaults, function expressions, arrow functions, blocks,
`const` declarations, expression and return statements, calls, object
literals with plain / spread / method members) together with a zipper
representation of a `NodePath`: the position of the marker call inside
the tree, listed from the call outward.  The host framework's tree-edit
primitives (`insertBefore`, `unshiftContainer`, `replaceWith`) become
pure surgeries on the zipper, and the visitor's `CallExpression.enter`
callback becomes the function `processSite`.
-/

namespace EphemeralPlugin

/-! ## The syntax-tree fragment -/

mutual

/-- Expressions of the embedded Babel fragment. -/
inductive Expr where
  | ident (name : String)
  | num (n : Nat)
  | str (s : String)
  /-- models `void 0`, the node built by `t.buildUndefinedNode()` -/
  | voidZero
  | call (callee : Expr) (args : List Expr)
  | objectLit (props : List Prp)
  | functionExpr (generator : Bool) (params : List String) (body : List Stmt)
  | arrowFunc (params : List String) (body : List Stmt)
  | assign (lhs rhs : Expr)
  /-- non-computed member access, as built by `t.memberExpression` -/
  | member (obj : Expr) (key : Expr)

/-- Members of an object literal: a plain property (with its `computed`
flag), a spread element, or a method. -/
inductive Prp where
  | prop (computed : Bool) (key : Expr) (value : Expr)
  | spread (arg : Expr)
  | objMethod (name : String)

/-- A function-declaration parameter, possibly with a default value
(an `AssignmentPattern` in Babel terms). -/
inductive Param where
  | plain (name : String)
  | withDefault (name : String) (value : Expr)

/-- Statements of the embedded fragment. -/
inductive Stmt where
  | exprStmt (e : Expr)
  /-- a single-declarator `const` declaration -/
  | constDecl (name : String) (init : Expr)
  | returnStmt (e : Expr)
  | functionDecl (name : String) (generator : Bool) (params : List Param)
      (body : List Stmt)
  | blockStmt (body : List Stmt)

end

/-- A node reference, used for ancestor chains and for the program-order
listing of a tree.  `prog` stands for the Babel `Program` node. -/
inductive PNode where
  | stmt (s : Stmt)
  | expr (e : Expr)
  | prog (body : List Stmt)

/-! ## Program order

`flattenStmt`/`flattenExpr` list every node of a subtree in the order a
pre-order (document-order) walk meets them; for a function declaration
the parameters precede the body, as in source text. -/

mutual

def flattenExpr : Expr → List PNode
  | .ident n => [.expr (.ident n)]
  | .num n => [.expr (.num n)]
  | .str s => [.expr (.str s)]
  | .voidZero => [.expr .voidZero]
  | .call c args => .expr (.call c args) :: (flattenExpr c ++ flattenExprList args)
  | .objectLit props => .expr (.objectLit props) :: flattenPrpList props
  | .functionExpr g ps body => .expr (.functionExpr g ps body) :: flattenStmtList body
  | .arrowFunc ps body => .expr (.arrowFunc ps body) :: flattenStmtList body
  | .assign l r => .expr (.assign l r) :: (flattenExpr l ++ flattenExpr r)
  | .member o k => .expr (.member o k) :: (flattenExpr o ++ flattenExpr k)

def flattenExprList : List Expr → List PNode
  | [] => []
  | e :: es => flattenExpr e ++ flattenExprList es

def flattenPrp : Prp → List PNode
  | .prop _ k v => flattenExpr k ++ flattenExpr v
  | .spread a => flattenExpr a
  | .objMethod _ => []

def flattenPrpList : List Prp → List PNode
  | [] => []
  | p :: ps => flattenPrp p ++ flattenPrpList ps

def flattenParam : Param → List PNode
  | .plain _ => []
  | .withDefault _ v => flattenExpr v

def flattenParamList : List Param → List PNode
  | [] => []
  | p :: ps => flattenParam p ++ flattenParamList ps

def flattenStmt : Stmt → List PNode
  | .exprStmt e => .stmt (.exprStmt e) :: flattenExpr e
  | .constDecl n i => .stmt (.constDecl n i) :: flattenExpr i
  | .returnStmt e => .stmt (.returnStmt e) :: flattenExpr e
  | .functionDecl n g ps body =>
      .stmt (.functionDecl n g ps body) :: (flattenParamList ps ++ flattenStmtList body)
  | .blockStmt body => .stmt (.blockStmt body) :: flattenStmtList body

def flattenStmtList : List Stmt → List PNode
  | [] => []
  | s :: ss => flattenStmt s ++ flattenStmtList ss

end

/-! ## The call-site zipper

A marker call sits inside expressions, inside a statement, inside nested
statement lists.  `EFrame` is one expression-inside-expression step,
`SFrame` the step from the expression level to its containing statement
(for `paramDefault`, that containing statement is the function
declaration itself, matching the Babel parent chain
`CallExpression → AssignmentPattern → FunctionDeclaration`), and
`StmtHole` the position of a statement inside the nested statement-list
structure, up to the `Program` body. -/

/-- One expression-inside-expression context frame. -/
inductive EFrame where
  | callArg (callee : Expr) (before after : List Expr)
  | propValue (computed : Bool) (key : Expr) (before after : List Prp)
  | assignRhs (lhs : Expr)
  | memberObj (key : Expr)

/-- The step from an expression to the statement that directly contains
it. -/
inductive SFrame where
  | exprStmtF
  | constInit (name : String)
  | returnF
  /-- the expression is the default value of a parameter of a function
  declaration, whose remaining fields are recorded here -/
  | paramDefault (fname : String) (generator : Bool) (pname : String)
      (pbefore pafter : List Param) (body : List Stmt)

mutual

/-- The position of one statement slot: the siblings around it and what
owns the statement list it lives in. -/
inductive StmtHole where
  | program (before after : List Stmt)
  | block (before after : List Stmt) (up : StmtHole)
  | fdBody (fname : String) (generator : Bool) (params : List Param)
      (before after : List Stmt) (up : StmtHole)
  | feBody (generator : Bool) (params : List String)
      (before after : List Stmt) (up : ExprHole)
  | arrowBody (params : List String) (before after : List Stmt) (up : ExprHole)

/-- The position of an expression: its expression frames (innermost
first), the statement frame, and the position of that statement. -/
inductive ExprHole where
  | mk (frames : List EFrame) (sf : SFrame) (up : StmtHole)

end

def applyEFrame (f : EFrame) (e : Expr) : Expr :=
  match f with
  | .callArg c b a => .call c (b ++ e :: a)
  | .propValue cp k b a => .objectLit (b ++ .prop cp k e :: a)
  | .assignRhs l => .assign l e
  | .memberObj k => .member e k

def applyEFrames : List EFrame → Expr → Expr
  | [], e => e
  | f :: fs, e => applyEFrames fs (applyEFrame f e)

def applySFrame (sf : SFrame) (e : Expr) : Stmt :=
  match sf with
  | .exprStmtF => .exprStmt e
  | .constInit n => .constDecl n e
  | .returnF => .returnStmt e
  | .paramDefault fn g pn pb pa body =>
      .functionDecl fn g (pb ++ .withDefault pn e :: pa) body

mutual

/-- Rebuild the whole program with the statement list `L` in the slot
described by `H` (`plugStmts [s] H` puts the single statement `s`
there). -/
def plugStmts (L : List Stmt) : StmtHole → List Stmt
  | .program b a => b ++ L ++ a
  | .block b a up => plugStmts [.blockStmt (b ++ L ++ a)] up
  | .fdBody fn g ps b a up => plugStmts [.functionDecl fn g ps (b ++ L ++ a)] up
  | .feBody g ps b a up => plugExpr (.functionExpr g ps (b ++ L ++ a)) up
  | .arrowBody ps b a up => plugExpr (.arrowFunc ps (b ++ L ++ a)) up

/-- Rebuild the whole program with the expression `e` at the hole. -/
def plugExpr (e : Expr) : ExprHole → List Stmt
  | .mk fs sf up => plugStmts [applySFrame sf (applyEFrames fs e)] up

end

/-! ## Host tree-edit primitives on the zipper -/

/-- `insertBefore`: place the statements `L` immediately before the
statement sitting at `H`, i.e. at the end of its `before` siblings.
Successive `insertBefore` calls on one target therefore stack up in call
order, the later insertion landing closer to the target, exactly as the
Babel primitive behaves. -/
def insertBeforeH (L : List Stmt) : StmtHole → StmtHole
  | .program b a => .program (b ++ L) a
  | .block b a up => .block (b ++ L) a up
  | .fdBody fn g ps b a up => .fdBody fn g ps (b ++ L) a up
  | .feBody g ps b a up => .feBody g ps (b ++ L) a up
  | .arrowBody ps b a up => .arrowBody ps (b ++ L) a up

/-- Babel `path.replaceWith` applied at an expression slot with a
statement argument: a lone `ExpressionStatement` collapses back to its
expression (`replaceExpressionWithStatements` gathers it into a sequence
expression).  Any other statement shape would need the arrow-IIFE
fallback, which the plugin never produces. -/
def coerceReplacement : Stmt → Option Expr
  | .exprStmt e => some e
  | _ => none

/-! ## Scope resolution (`getParentOfType`, `getInsertScope`,
`getStatementParent`, lines 20-46 of `part_000`)

`getParentOfType` recurses on `path.context.parentPath` with no base
case; we model the ancestor chain as the list of ancestor nodes from the
immediate parent outward, the empty list standing for having run past
the `Program` node (where the source dereferences a `null` parent and
faults). -/

def getParentOfType : List PNode → (PNode → Bool) → Option PNode
  | [], _ => none
  | p :: rest, pred => if pred p then some p else getParentOfType rest pred

/-- The predicate of `getInsertScope` (lines 34-41): function
declaration, function expression, arrow function or `Program`. -/
def isScopeNode : PNode → Bool
  | .stmt (.functionDecl ..) => true
  | .expr (.functionExpr ..) => true
  | .expr (.arrowFunc ..) => true
  | .prog _ => true
  | _ => false

/-- Babel `t.isStatement`; `Program` is not a `Statement`. -/
def isStatementNode : PNode → Bool
  | .stmt _ => true
  | _ => false

def getInsertScope (chain : List PNode) : Option PNode :=
  getParentOfType chain isScopeNode

def getStatementParent (chain : List PNode) : Option PNode :=
  getParentOfType chain isStatementNode

/-! ## Anchor resolution on the zipper

`anchorKind` is `getInsertScope` read off the zipper: starting from the
call, no `EFrame` node matches the predicate, the statement formed by the
`SFrame` matches only in the `paramDefault` case (the function
declaration itself), and above that the walk crosses block statements
until the first function-like owner or the program body. -/

/-- The kind of scope anchor `getInsertScope` resolves to. -/
inductive Anchor where
  | progA
  | fdA (fname : String) (generator : Bool)
  | feA (generator : Bool)
  | arrowA

def anchorKindH : StmtHole → Anchor
  | .program _ _ => .progA
  | .block _ _ up => anchorKindH up
  | .fdBody fn g _ _ _ _ => .fdA fn g
  | .feBody g _ _ _ _ => .feA g
  | .arrowBody _ _ _ _ => .arrowA

def anchorKind : ExprHole → Anchor
  | .mk _ (.paramDefault fn g ..) _ => .fdA fn g
  | .mk _ _ up => anchorKindH up

/-- Generator-style functions in the sense of the specification: any
function that can be suspended and resumed, i.e. a generator function
declaration or a generator function expression. -/
def anchorIsGeneratorStyle : Anchor → Bool
  | .fdA _ g => g
  | .feA g => g
  | _ => false

/-! ## The declaration edit (lines 131-152 of `part_000`)

`insertParent` is the anchor itself when it is a statement or the
program, otherwise the anchor's nearest statement ancestor.  Then:
a generator function declaration gets the declaration unshifted into its
body; the program body gets it inserted before the call's statement
parent; everything else gets it inserted before `insertParent`. -/

/-- The code path for an expression-valued anchor (function expression
or arrow): `insertParent = getStatementParent(insertScope)`, the
statement at this hole.  When that statement is a generator function
declaration (the anchor hangs in its parameter defaults), the
`insertNode.generator` branch fires and unshifts into its body;
otherwise the declaration is inserted before the statement. -/
def declEditAtStmtParent (decl : Stmt) : ExprHole → ExprHole
  | .mk fs (.paramDefault fn true pn pb pa body) up =>
      .mk fs (.paramDefault fn true pn pb pa (decl :: body)) up
  | .mk fs sf up => .mk fs sf (insertBeforeH [decl] up)

/-- The declaration edit when the anchor is found on the owner chain
above the call's statement. -/
def declEditH (decl : Stmt) : StmtHole → StmtHole
  | .block b a up => .block b a (declEditH decl up)
  | .fdBody fn true ps b a up => .fdBody fn true ps (decl :: b) a up
  | .fdBody fn false ps b a up => .fdBody fn false ps b a (insertBeforeH [decl] up)
  | .feBody g ps b a up => .feBody g ps b a (declEditAtStmtParent decl up)
  | .arrowBody ps b a up => .arrowBody ps b a (declEditAtStmtParent decl up)
  | .program b a => .program b a

/-- The whole declaration edit.  In the `paramDefault` cases the anchor
is the enclosing function declaration itself (it is the nearest
function-like ancestor and already a statement); in the program-anchor
case the declaration goes before the call's statement parent. -/
def declEdit (decl : Stmt) : ExprHole → ExprHole
  | .mk fs (.paramDefault fn true pn pb pa body) up =>
      .mk fs (.paramDefault fn true pn pb pa (decl :: body)) up
  | .mk fs (.paramDefault fn false pn pb pa body) up =>
      .mk fs (.paramDefault fn false pn pb pa body) (insertBeforeH [decl] up)
  | .mk fs sf up =>
      match anchorKindH up with
      | .progA => .mk fs sf (insertBeforeH [decl] up)
      | _ => .mk fs sf (declEditH decl up)

/-- The mutation edit (lines 159-171): insert the update statements
before the call's statement parent. -/
def mutEdit (muts : List Stmt) : ExprHole → ExprHole
  | .mk fs sf up => .mk fs sf (insertBeforeH muts up)

/-! ## The name allocator (`idGenWeakMap` / `getTempVarName`, lines 4-13)

The source keeps a module-level `WeakMap` from scope `NodePath` identity
to the next unused ordinal.  We model `NodePath` identity by a natural
number and the map by an association list that, like the module-level
`WeakMap`, persists across runs; nothing ever empties it. -/

/-- The module-level map state: scope identity to next ordinal. -/
abbrev IdMap := List (Nat × Nat)

def lookupId : IdMap → Nat → Option Nat
  | [], _ => none
  | (k, v) :: rest, a => if k = a then some v else lookupId rest a

/-- `WeakMap.set`: overwrite the entry for the key, or add one. -/
def setId : IdMap → Nat → Nat → IdMap
  | [], a, v => [(a, v)]
  | (k, w) :: rest, a, v => if k = a then (a, v) :: rest else (k, w) :: setId rest a v

/-- The decimal rendering of an ordinal, as the template literal
`` `_genEphemeralObj${id}` `` stringifies the number: most significant
digit first, `"0"` for zero. -/
def decimalChars (n : Nat) : List Char :=
  if n = 0 then ['0']
  else ((Nat.digits 10 n).reverse.map fun d => Char.ofNat (48 + d))

/-- The identifier produced for ordinal `id` (line 8). -/
def tempName (id : Nat) : String :=
  "_genEphemeralObj" ++ String.mk (decimalChars id)

/-- Lines 6-13: read the current ordinal for the scope (0 when absent),
store the incremented ordinal, return the built name together with the
updated module state. -/
def getTempVarName (scope : Nat) (m : IdMap) : String × IdMap :=
  let id := (lookupId m scope).getD 0
  (tempName id, setId m scope (id + 1))

/-- One allocation record: the scope anchor, the ordinal used, and the
produced identifier. -/
structure Alloc where
  scope : Nat
  ordinal : Nat
  name : String

/-- A run's worth of allocations in source-visitation order, threading
the module-level map. -/
def allocAll : List Nat → IdMap → List Alloc × IdMap
  | [], m => ([], m)
  | a :: rest, m =>
      let id := (lookupId m a).getD 0
      let m' := setId m a (id + 1)
      let r := allocAll rest m'
      (⟨a, id, tempName id⟩ :: r.1, r.2)

/-! ## The visitor callback (`CallExpression.enter`) -/

/-- `t.isObjectProperty` (line 79). -/
def isObjectProperty : Prp → Bool
  | .prop .. => true
  | _ => false

/-- `t.isIdentifier(p.key)` (line 87): the key node must be an
`Identifier`; the property's `computed` flag is not consulted, and a
non-property member has no key (`undefined`, not an identifier). -/
def keyIsIdentifier : Prp → Bool
  | .prop _ (.ident _) _ => true
  | _ => false

def shapeMsg : String :=
  "ephmemeral() should have exactly 1 argument, consisting of an object literal."

def propKindMsg : String :=
  "ephmemeral() should be called with an object without methods or spread values."

def keyKindMsg : String :=
  "ephmemeral() should be called with an object with only plain keys."

/-- The validation of lines 70-93: exactly one argument and it is an
object literal, every member a plain property, every key an identifier
node.  Returns the diagnostic message of the first failing check. -/
def validate : List Expr → Option String
  | [.objectLit props] =>
      if !(props.all isObjectProperty) then some propKindMsg
      else if !(props.all keyIsIdentifier) then some keyKindMsg
      else none
  | _ => some shapeMsg

/-- Lines 112-122: the initial properties of the hoisted declaration,
`t.objectProperty(t.identifier(prop.key.name), t.buildUndefinedNode())`
for each member; `none` models the `throw new Error` on a key that is
not an identifier. -/
def initPropsE : List Prp → Option (List Prp)
  | [] => some []
  | .prop _ (.ident n) _ :: ps =>
      (initPropsE ps).map (fun rest => .prop false (.ident n) .voidZero :: rest)
  | _ => none

/-- The key node of a member as line 164 reads it (`prop.key`); members
that are not plain properties have no key and are unreachable after
validation. -/
def keyOf : Prp → Expr
  | .prop _ k _ => k
  | _ => .voidZero

/-- The value expression of a member as line 165 reads it
(`prop.value`). -/
def valOf : Prp → Expr
  | .prop _ _ v => v
  | .spread a => a
  | .objMethod _ => .voidZero

/-- Lines 159-167: one update statement per member, in order:
`declName.key = value`, wrapped into an expression statement by the
host's `insertBefore`. -/
def mutsOf (name : String) (props : List Prp) : List Stmt :=
  props.map fun p => .exprStmt (.assign (.member (.ident name) (keyOf p)) (valOf p))

/-- A candidate marker call: its precomputed source-location string, its
argument list and its position in the tree. -/
structure Site where
  loc : String
  args : List Expr
  hole : ExprHole

/-- The original call node, `ephemeral(...)`. -/
def theCall (s : Site) : Expr := .call (.ident "ephemeral") s.args

/-- The outcome of running `CallExpression.enter` on one site: whether
an internal error was thrown, the diagnostics written to the error
channel, and the resulting whole tree. -/
structure StepOut where
  fatal : Bool
  diags : List String
  tree : List Stmt

def diagOf (s : Site) (msg : String) : String := s.loc ++ " " ++ msg

/-- The `CallExpression.enter` callback of lines 60-177, for a call that
has already matched the `ephemeral` callee test, given the ordinal `id`
the name allocator produced for its resolved scope anchor. -/
def processSite (id : Nat) (s : Site) : StepOut :=
  match s.args with
  | [.objectLit props] =>
      if !(props.all isObjectProperty) then
        ⟨false, [diagOf s propKindMsg], plugExpr (theCall s) s.hole⟩
      else if !(props.all keyIsIdentifier) then
        ⟨false, [diagOf s keyKindMsg], plugExpr (theCall s) s.hole⟩
      else
        match initPropsE props with
        | none => ⟨true, [], plugExpr (theCall s) s.hole⟩
        | some ip =>
            let name := tempName id
            let decl : Stmt := .constDecl name (.objectLit ip)
            let h1 := declEdit decl s.hole
            let h2 := mutEdit (mutsOf name props) h1
            match coerceReplacement (.exprStmt (.ident name)) with
            | some r => ⟨false, [], plugExpr r h2⟩
            | none => ⟨true, [], plugExpr (theCall s) s.hole⟩
  | _ => ⟨false, [diagOf s shapeMsg], plugExpr (theCall s) s.hole⟩

/-- The host traversal over the remaining candidate sites: it keeps
calling the visitor unless a callback throws. -/
def runSites : List (Nat × Site) → List String × Bool
  | [] => ([], false)
  | (i, s) :: rest =>
      let o := processSite i s
      if o.fatal then (o.diags, true)
      else
        let r := runSites rest
        (o.diags ++ r.1, r.2)

/-! ## Accessors and derived notions used by the theorems -/

def upOf : ExprHole → StmtHole
  | .mk _ _ up => up

/-- The statements standing immediately before the slot of `H`, in the
same list. -/
def beforeOf : StmtHole → List Stmt
  | .program b _ => b
  | .block b _ _ => b
  | .fdBody _ _ _ b _ _ => b
  | .feBody _ _ b _ _ => b
  | .arrowBody _ b _ _ => b

/-- The key name read by `prop.key.name`; only reached on identifier
keys. -/
def keyNameOf : Prp → String
  | .prop _ (.ident n) _ => n
  | _ => ""

/-- The body of the function-like node the scope resolution anchors at
(with `s` standing for the call's rebuilt statement), or `none` when the
anchor is the program. -/
def ownerFnBodyH : StmtHole → Stmt → Option (List Stmt)
  | .program _ _, _ => none
  | .block b a up, s => ownerFnBodyH up (.blockStmt (b ++ s :: a))
  | .fdBody _ _ _ b a _, s => some (b ++ s :: a)
  | .feBody _ _ b a _, s => some (b ++ s :: a)
  | .arrowBody _ b a _, s => some (b ++ s :: a)

def ownerFnBody (e : Expr) : ExprHole → Option (List Stmt)
  | .mk _ (.paramDefault _ _ _ _ _ body) _ => some body
  | .mk fs sf up => ownerFnBodyH up (applySFrame sf (applyEFrames fs e))

/-- True when the statement the anchor resolution hands to the insertion
dispatch is a generator function declaration reached through its
parameter defaults, i.e. when the `insertNode.generator` branch fires
although the call site does not sit inside that declaration's body. -/
def isGenParamSF : ExprHole → Bool
  | .mk _ (.paramDefault _ true ..) _ => true
  | _ => false

def declViaGenParamsH : StmtHole → Bool
  | .block _ _ up => declViaGenParamsH up
  | .feBody _ _ _ _ up => isGenParamSF up
  | .arrowBody _ _ _ up => isGenParamSF up
  | _ => false

def declViaGenParams : ExprHole → Bool
  | .mk _ (.paramDefault _ g ..) _ => g
  | .mk _ _ up => declViaGenParamsH up

/-! ## List-level facts about program order -/

theorem flattenExprList_append (l1 l2 : List Expr) :
    flattenExprList (l1 ++ l2) = flattenExprList l1 ++ flattenExprList l2 := by
  induction l1 with
  | nil => simp [flattenExprList]
  | cons e es ih => simp [flattenExprList, ih]

theorem flattenPrpList_append (l1 l2 : List Prp) :
    flattenPrpList (l1 ++ l2) = flattenPrpList l1 ++ flattenPrpList l2 := by
  induction l1 with
  | nil => simp [flattenPrpList]
  | cons p ps ih => simp [flattenPrpList, ih]

theorem flattenParamList_append (l1 l2 : List Param) :
    flattenParamList (l1 ++ l2) = flattenParamList l1 ++ flattenParamList l2 := by
  induction l1 with
  | nil => simp [flattenParamList]
  | cons p ps ih => simp [flattenParamList, ih]

theorem flattenStmtList_append (l1 l2 : List Stmt) :
    flattenStmtList (l1 ++ l2) = flattenStmtList l1 ++ flattenStmtList l2 := by
  induction l1 with
  | nil => simp [flattenStmtList]
  | cons s ss ih => simp [flattenStmtList, ih]

theorem flattenStmt_head (s : Stmt) : ∃ t, flattenStmt s = .stmt s :: t := by
  cases s <;> exact ⟨_, rfl⟩

theorem flattenExpr_head (e : Expr) : ∃ t, flattenExpr e = .expr e :: t := by
  cases e <;> exact ⟨_, rfl⟩

theorem stmt_mem_flattenStmtList {m : Stmt} {L : List Stmt} (h : m ∈ L) :
    PNode.stmt m ∈ flattenStmtList L := by
  induction L with
  | nil => cases h
  | cons s ss ih =>
      rcases List.mem_cons.mp h with rfl | h'
      · obtain ⟨t, ht⟩ := flattenStmt_head m
        simp [flattenStmtList, ht]
      · simp only [flattenStmtList, List.mem_append]
        exact Or.inr (ih h')

theorem flatten_applyEFrame (f : EFrame) (e : Expr) :
    ∃ A B, flattenExpr (applyEFrame f e) = A ++ flattenExpr e ++ B := by
  cases f with
  | callArg c b a =>
      exact ⟨.expr (.call c (b ++ e :: a)) :: (flattenExpr c ++ flattenExprList b),
        flattenExprList a, by simp [applyEFrame, flattenExpr, flattenExprList_append,
          flattenExprList]⟩
  | propValue cp k b a =>
      exact ⟨.expr (.objectLit (b ++ .prop cp k e :: a)) :: (flattenPrpList b ++ flattenExpr k),
        flattenPrpList a, by simp [applyEFrame, flattenExpr, flattenPrpList_append,
          flattenPrpList, flattenPrp]⟩
  | assignRhs l =>
      exact ⟨.expr (.assign l e) :: flattenExpr l, [], by simp [applyEFrame, flattenExpr]⟩
  | memberObj k =>
      exact ⟨[.expr (.member e k)], flattenExpr k, by simp [applyEFrame, flattenExpr]⟩

theorem flatten_applyEFrames (fs : List EFrame) (e : Expr) :
    ∃ A B, flattenExpr (applyEFrames fs e) = A ++ flattenExpr e ++ B := by
  induction fs generalizing e with
  | nil => exact ⟨[], [], by simp [applyEFrames]⟩
  | cons f fs ih =>
      obtain ⟨A1, B1, h1⟩ := ih (applyEFrame f e)
      obtain ⟨A2, B2, h2⟩ := flatten_applyEFrame f e
      exact ⟨A1 ++ A2, B2 ++ B1, by simp [applyEFrames, h1, h2]⟩

theorem flatten_applySFrame (sf : SFrame) (e : Expr) :
    ∃ A B, flattenStmt (applySFrame sf e) = A ++ flattenExpr e ++ B := by
  cases sf with
  | exprStmtF => exact ⟨[.stmt (.exprStmt e)], [], by simp [applySFrame, flattenStmt]⟩
  | constInit n => exact ⟨[.stmt (.constDecl n e)], [], by simp [applySFrame, flattenStmt]⟩
  | returnF => exact ⟨[.stmt (.returnStmt e)], [], by simp [applySFrame, flattenStmt]⟩
  | paramDefault fn g pn pb pa body =>
      exact ⟨.stmt (.functionDecl fn g (pb ++ .withDefault pn e :: pa) body) ::
          flattenParamList pb,
        flattenParamList pa ++ flattenStmtList body,
        by simp [applySFrame, flattenStmt, flattenParamList_append, flattenParamList,
          flattenParam]⟩

/-- The statement rebuilt around the call decomposes linearly around the
call's own nodes. -/
theorem flatten_siteStmt (fs : List EFrame) (sf : SFrame) (e : Expr) :
    ∃ A B, flattenStmt (applySFrame sf (applyEFrames fs e)) = A ++ flattenExpr e ++ B := by
  obtain ⟨A1, B1, h1⟩ := flatten_applySFrame sf (applyEFrames fs e)
  obtain ⟨A2, B2, h2⟩ := flatten_applyEFrames fs e
  exact ⟨A1 ++ A2, B2 ++ B1, by simp [h1, h2]⟩

theorem expr_mem_flatten_siteStmt (fs : List EFrame) (sf : SFrame) (e : Expr) :
    PNode.expr e ∈ flattenStmt (applySFrame sf (applyEFrames fs e)) := by
  obtain ⟨A, B, h⟩ := flatten_siteStmt fs sf e
  obtain ⟨t, ht⟩ := flattenExpr_head e
  simp [h, ht]

theorem mem_flatten_siteStmt {x : PNode} (fs : List EFrame) (sf : SFrame) {e : Expr}
    (hx : x ∈ flattenExpr e) :
    x ∈ flattenStmt (applySFrame sf (applyEFrames fs e)) := by
  obtain ⟨A, B, h⟩ := flatten_siteStmt fs sf e
  simp [h, hx]

/-! ## Plugging and tree edits in program order -/

theorem plugStmts_insertBeforeH (L1 L2 : List Stmt) (H : StmtHole) :
    plugStmts L2 (insertBeforeH L1 H) = plugStmts (L1 ++ L2) H := by
  cases H <;> simp [insertBeforeH, plugStmts, List.append_assoc]

theorem insertBeforeH_insertBeforeH (L1 L2 : List Stmt) (H : StmtHole) :
    insertBeforeH L2 (insertBeforeH L1 H) = insertBeforeH (L1 ++ L2) H := by
  cases H <;> simp [insertBeforeH, List.append_assoc]

/-- Program order is linear in the hole: whatever statement list is
plugged into a slot, its nodes appear contiguously between a fixed-shape
prefix and suffix. -/
theorem flatten_plugStmts : ∀ (H : StmtHole) (L : List Stmt),
    ∃ A B, flattenStmtList (plugStmts L H) = A ++ flattenStmtList L ++ B
  | .program b a, L =>
      ⟨flattenStmtList b, flattenStmtList a, by simp [plugStmts, flattenStmtList_append]⟩
  | .block b a up, L => by
      obtain ⟨A, B, h⟩ := flatten_plugStmts up [.blockStmt (b ++ L ++ a)]
      refine ⟨A ++ .stmt (.blockStmt (b ++ L ++ a)) :: flattenStmtList b,
        flattenStmtList a ++ B, ?_⟩
      simp only [plugStmts]
      rw [h]
      simp [flattenStmtList, flattenStmt, flattenStmtList_append]
  | .fdBody fn g ps b a up, L => by
      obtain ⟨A, B, h⟩ := flatten_plugStmts up [.functionDecl fn g ps (b ++ L ++ a)]
      refine ⟨A ++ .stmt (.functionDecl fn g ps (b ++ L ++ a)) ::
          (flattenParamList ps ++ flattenStmtList b),
        flattenStmtList a ++ B, ?_⟩
      simp only [plugStmts]
      rw [h]
      simp [flattenStmtList, flattenStmt, flattenStmtList_append]
  | .feBody g ps b a (.mk fs sf up), L => by
      obtain ⟨A, B, h⟩ :=
        flatten_plugStmts up [applySFrame sf (applyEFrames fs (.functionExpr g ps (b ++ L ++ a)))]
      obtain ⟨A2, B2, h2⟩ := flatten_siteStmt fs sf (.functionExpr g ps (b ++ L ++ a))
      refine ⟨A ++ A2 ++ .expr (.functionExpr g ps (b ++ L ++ a)) :: flattenStmtList b,
        flattenStmtList a ++ B2 ++ B, ?_⟩
      simp only [plugStmts, plugExpr]
      rw [h]
      simp only [flattenStmtList, List.append_nil]
      rw [h2]
      simp [flattenExpr, flattenStmtList_append]
  | .arrowBody ps b a (.mk fs sf up), L => by
      obtain ⟨A, B, h⟩ :=
        flatten_plugStmts up [applySFrame sf (applyEFrames fs (.arrowFunc ps (b ++ L ++ a)))]
      obtain ⟨A2, B2, h2⟩ := flatten_siteStmt fs sf (.arrowFunc ps (b ++ L ++ a))
      refine ⟨A ++ A2 ++ .expr (.arrowFunc ps (b ++ L ++ a)) :: flattenStmtList b,
        flattenStmtList a ++ B2 ++ B, ?_⟩
      simp only [plugStmts, plugExpr]
      rw [h]
      simp only [flattenStmtList, List.append_nil]
      rw [h2]
      simp [flattenExpr, flattenStmtList_append]

theorem declEditAtStmtParent_of_not_genParam (decl : Stmt) (fs : List EFrame) (sf : SFrame)
    (H : StmtHole) (hg : isGenParamSF (.mk fs sf H) = false) :
    declEditAtStmtParent decl (.mk fs sf H) = .mk fs sf (insertBeforeH [decl] H) := by
  cases sf with
  | paramDefault fn g pn pb pa body =>
      cases g
      · rfl
      · simp [isGenParamSF] at hg
  | exprStmtF => rfl
  | constInit n => rfl
  | returnF => rfl

/-- Wherever on the owner chain the declaration edit places the hoisted
declaration, its node comes before every node of the statement list at
the call's slot — provided the edit is not the generator branch fired
through a parameter default. -/
theorem declEditH_flatten (decl : Stmt) : ∀ (H : StmtHole) (L : List Stmt),
    declViaGenParamsH H = false → anchorKindH H ≠ .progA →
    ∃ l1 l2, flattenStmtList (plugStmts L (declEditH decl H)) = l1 ++ .stmt decl :: l2 ∧
      ∀ x ∈ flattenStmtList L, x ∈ l2
  | .program b a, L, _, hA => absurd rfl hA
  | .block b a up, L, hg, hA => by
      obtain ⟨l1, l2, heq, hmem⟩ :=
        declEditH_flatten decl up [.blockStmt (b ++ L ++ a)]
          (by simpa [declViaGenParamsH] using hg) (by simpa [anchorKindH] using hA)
      refine ⟨l1, l2, ?_, ?_⟩
      · simpa only [declEditH, plugStmts] using heq
      · intro x hx
        exact hmem x (by simp [flattenStmtList, flattenStmt, flattenStmtList_append, hx])
  | .fdBody fn true ps b a up, L, hg, hA => by
      obtain ⟨A, B, h⟩ :=
        flatten_plugStmts up [.functionDecl fn true ps (decl :: b ++ L ++ a)]
      obtain ⟨dt, hdt⟩ := flattenStmt_head decl
      refine ⟨A ++ .stmt (.functionDecl fn true ps (decl :: b ++ L ++ a)) ::
          flattenParamList ps,
        dt ++ flattenStmtList b ++ flattenStmtList L ++ flattenStmtList a ++ B,
        ?_, ?_⟩
      · simp only [declEditH, plugStmts, List.cons_append] at h ⊢
        rw [h]
        simp [flattenStmtList, flattenStmt, flattenStmtList_append, hdt]
      · intro x hx
        simp [hx]
  | .fdBody fn false ps b a up, L, hg, hA => by
      obtain ⟨A, B, h⟩ :=
        flatten_plugStmts up ([decl] ++ [.functionDecl fn false ps (b ++ L ++ a)])
      obtain ⟨dt, hdt⟩ := flattenStmt_head decl
      refine ⟨A, dt ++ flattenStmt (.functionDecl fn false ps (b ++ L ++ a)) ++ B, ?_, ?_⟩
      · simp only [declEditH, plugStmts, plugStmts_insertBeforeH] at h ⊢
        rw [h]
        simp [flattenStmtList, flattenStmtList_append, hdt]
      · intro x hx
        simp [flattenStmt, flattenStmtList_append, hx]
  | .feBody g ps b a (.mk fs sf H'), L, hg, hA => by
      have hsg : isGenParamSF (.mk fs sf H') = false := by
        simpa [declViaGenParamsH] using hg
      obtain ⟨A, B, h⟩ := flatten_plugStmts H'
        ([decl] ++ [applySFrame sf (applyEFrames fs (.functionExpr g ps (b ++ L ++ a)))])
      obtain ⟨dt, hdt⟩ := flattenStmt_head decl
      refine ⟨A, dt ++
          flattenStmt (applySFrame sf (applyEFrames fs (.functionExpr g ps (b ++ L ++ a)))) ++ B,
        ?_, ?_⟩
      · simp only [declEditH, declEditAtStmtParent_of_not_genParam decl fs sf H' hsg,
          plugStmts, plugExpr, plugStmts_insertBeforeH] at h ⊢
        rw [h]
        simp [flattenStmtList, flattenStmtList_append, hdt]
      · intro x hx
        have hx2 : x ∈ flattenExpr (.functionExpr g ps (b ++ L ++ a)) := by
          simp [flattenExpr, flattenStmtList_append, hx]
        simp only [List.mem_append]
        exact Or.inl (Or.inr (mem_flatten_siteStmt fs sf hx2))
  | .arrowBody ps b a (.mk fs sf H'), L, hg, hA => by
      have hsg : isGenParamSF (.mk fs sf H') = false := by
        simpa [declViaGenParamsH] using hg
      obtain ⟨A, B, h⟩ := flatten_plugStmts H'
        ([decl] ++ [applySFrame sf (applyEFrames fs (.arrowFunc ps (b ++ L ++ a)))])
      obtain ⟨dt, hdt⟩ := flattenStmt_head decl
      refine ⟨A, dt ++
          flattenStmt (applySFrame sf (applyEFrames fs (.arrowFunc ps (b ++ L ++ a)))) ++ B,
        ?_, ?_⟩
      · simp only [declEditH, declEditAtStmtParent_of_not_genParam decl fs sf H' hsg,
          plugStmts, plugExpr, plugStmts_insertBeforeH] at h ⊢
        rw [h]
        simp [flattenStmtList, flattenStmtList_append, hdt]
      · intro x hx
        have hx2 : x ∈ flattenExpr (.arrowFunc ps (b ++ L ++ a)) := by
          simp [flattenExpr, flattenStmtList_append, hx]
        simp only [List.mem_append]
        exact Or.inl (Or.inr (mem_flatten_siteStmt fs sf hx2))

/-! ## The declaration edit seen from the anchor's body (claim C1) -/

theorem ownerFnBodyH_declEditH (decl : Stmt) : ∀ (H : StmtHole) (s : Stmt) (fn : String),
    anchorKindH H = .fdA fn true →
    ∃ rest, ownerFnBodyH (declEditH decl H) s = some (decl :: rest)
  | .program _ _, s, fn, hA => by simp [anchorKindH] at hA
  | .block b a up, s, fn, hA => by
      obtain ⟨rest, h⟩ :=
        ownerFnBodyH_declEditH decl up (.blockStmt (b ++ s :: a))
          fn (by simpa [anchorKindH] using hA)
      exact ⟨rest, by simpa [declEditH, ownerFnBodyH] using h⟩
  | .fdBody fn' true ps b a up, s, fn, hA =>
      ⟨b ++ s :: a, by simp [declEditH, ownerFnBodyH]⟩
  | .fdBody fn' false ps b a up, s, fn, hA => by simp [anchorKindH] at hA
  | .feBody g ps b a up, s, fn, hA => by simp [anchorKindH] at hA
  | .arrowBody ps b a up, s, fn, hA => by simp [anchorKindH] at hA

theorem ownerFnBodyH_edits (decl : Stmt) (muts : List Stmt) (H : StmtHole) (s : Stmt)
    (fn : String) (hA : anchorKindH H = .fdA fn true) :
    ∃ rest, ownerFnBodyH (insertBeforeH muts (declEditH decl H)) s = some (decl :: rest) := by
  cases H with
  | program b a => simp [anchorKindH] at hA
  | block b a up =>
      obtain ⟨rest, h⟩ :=
        ownerFnBodyH_declEditH decl up (.blockStmt (b ++ muts ++ s :: a))
          fn (by simpa [anchorKindH] using hA)
      exact ⟨rest, by simpa [declEditH, insertBeforeH, ownerFnBodyH] using h⟩
  | fdBody fn' g ps b a up =>
      cases g
      · simp [anchorKindH] at hA
      · exact ⟨b ++ muts ++ s :: a,
          by simp [declEditH, insertBeforeH, ownerFnBodyH]⟩
  | feBody g ps b a up => simp [anchorKindH] at hA
  | arrowBody ps b a up => simp [anchorKindH] at hA

/-! ## The specification's insertion rule for expression-valued anchors
(claim C5) -/

/-- Claim C5's rule, written from the specification's words: for an
expression-valued anchor, insert the declaration immediately before the
nearest statement ancestor of the anchor itself. -/
def specInsertAtAnchorStmtParent (decl : Stmt) : ExprHole → ExprHole
  | .mk fs sf up => .mk fs sf (insertBeforeH [decl] up)

def specC5EditH (decl : Stmt) : StmtHole → StmtHole
  | .block b a up => .block b a (specC5EditH decl up)
  | .feBody g ps b a up => .feBody g ps b a (specInsertAtAnchorStmtParent decl up)
  | .arrowBody ps b a up => .arrowBody ps b a (specInsertAtAnchorStmtParent decl up)
  | h => h

/-- The whole-tree form of claim C5's rule. -/
def specC5Edit (decl : Stmt) : ExprHole → ExprHole
  | .mk fs sf up => .mk fs sf (specC5EditH decl up)

theorem declEditH_eq_specC5EditH (decl : Stmt) : ∀ (H : StmtHole),
    declViaGenParamsH H = false →
    (∃ g, anchorKindH H = .feA g) ∨ anchorKindH H = .arrowA →
    declEditH decl H = specC5EditH decl H
  | .program b a, _, hA => by simp [anchorKindH] at hA
  | .block b a up, hg, hA => by
      have ih := declEditH_eq_specC5EditH decl up
        (by simpa [declViaGenParamsH] using hg) (by simpa [anchorKindH] using hA)
      simp [declEditH, specC5EditH, ih]
  | .fdBody fn g ps b a up, _, hA => by simp [anchorKindH] at hA
  | .feBody g ps b a (.mk fs sf H'), hg, hA => by
      have hsg : isGenParamSF (.mk fs sf H') = false := by
        simpa [declViaGenParamsH] using hg
      simp [declEditH, specC5EditH,
        declEditAtStmtParent_of_not_genParam decl fs sf H' hsg,
        specInsertAtAnchorStmtParent]
  | .arrowBody ps b a (.mk fs sf H'), hg, hA => by
      have hsg : isGenParamSF (.mk fs sf H') = false := by
        simpa [declViaGenParamsH] using hg
      simp [declEditH, specC5EditH,
        declEditAtStmtParent_of_not_genParam decl fs sf H' hsg,
        specInsertAtAnchorStmtParent]

/-! ## A unique-occurrence splitting principle for lists -/

theorem append_cons_split_unique {α : Type} {x : α} : ∀ (A : List α) {B l1 l2 : List α},
    A ++ x :: B = l1 ++ x :: l2 → x ∉ A → x ∉ B → l1 = A ∧ l2 = B
  | [], B, l1, l2, h, hA, hB => by
      cases l1 with
      | nil =>
          simp only [List.nil_append, List.cons.injEq] at h
          exact ⟨rfl, h.2.symm⟩
      | cons y t =>
          simp only [List.nil_append, List.cons_append, List.cons.injEq] at h
          exact absurd (h.2 ▸ (by simp : x ∈ t ++ x :: l2)) hB
  | a :: A', B, l1, l2, h, hA, hB => by
      cases l1 with
      | nil =>
          simp only [List.cons_append, List.nil_append, List.cons.injEq] at h
          exact absurd (h.1 ▸ List.mem_cons_self a A') hA
      | cons y t =>
          simp only [List.cons_append, List.cons.injEq] at h
          obtain ⟨rfl, h2⟩ := h
          obtain ⟨ht, hl⟩ :=
            append_cons_split_unique A' h2 (fun hx => hA (List.mem_cons_of_mem _ hx)) hB
          exact ⟨by rw [ht], hl⟩

/-! ## Validation facts -/

theorem initPropsE_of_valid : ∀ (props : List Prp), props.all keyIsIdentifier = true →
    initPropsE props = some (props.map fun p => .prop false (.ident (keyNameOf p)) .voidZero)
  | [], _ => rfl
  | p :: ps, hall => by
      simp only [List.all_cons, Bool.and_eq_true] at hall
      obtain ⟨hp, hps⟩ := hall
      cases p with
      | prop c k v =>
          cases k <;> simp [keyIsIdentifier] at hp <;>
            simp [initPropsE, keyNameOf, initPropsE_of_valid ps hps]
      | spread a => simp [keyIsIdentifier] at hp
      | objMethod n => simp [keyIsIdentifier] at hp

/-! ## Injectivity of the produced identifiers -/

theorem digitChar_inj {d1 d2 : Nat} (h1 : d1 < 10) (h2 : d2 < 10)
    (h : Char.ofNat (48 + d1) = Char.ofNat (48 + d2)) : d1 = d2 := by
  interval_cases d1 <;> interval_cases d2 <;> simp_all

theorem map_digitChar_inj : ∀ (l1 l2 : List Nat), (∀ d ∈ l1, d < 10) → (∀ d ∈ l2, d < 10) →
    l1.map (fun d => Char.ofNat (48 + d)) = l2.map (fun d => Char.ofNat (48 + d)) → l1 = l2
  | [], [], _, _, _ => rfl
  | [], _ :: _, _, _, h => by simp at h
  | _ :: _, [], _, _, h => by simp at h
  | d1 :: t1, d2 :: t2, h1, h2, h => by
      simp only [List.map_cons, List.cons.injEq] at h
      have hd := digitChar_inj (h1 d1 (by simp)) (h2 d2 (by simp)) h.1
      have ht := map_digitChar_inj t1 t2 (fun d hd => h1 d (by simp [hd]))
        (fun d hd => h2 d (by simp [hd])) h.2
      rw [hd, ht]

theorem decimalChars_inj : ∀ {m n : Nat}, decimalChars m = decimalChars n → m = n := by
  have zeroCase : ∀ n : Nat, n ≠ 0 →
      ['0'] = (Nat.digits 10 n).reverse.map (fun d => Char.ofNat (48 + d)) → False := by
    intro n hn h
    have hlen : (Nat.digits 10 n).reverse.length = 1 := by
      have := congrArg List.length h
      simpa using this.symm
    obtain ⟨d, hd⟩ := List.length_eq_one.mp hlen
    have hdig : Nat.digits 10 n = [d] := by
      have := congrArg List.reverse hd
      simpa using this
    have hd10 : d < 10 :=
      Nat.digits_lt_base (by norm_num) (hdig ▸ List.mem_singleton_self d)
    have hchar : Char.ofNat (48 + d) = Char.ofNat (48 + 0) := by
      rw [hd] at h
      simpa using h.symm
    have hd0 : d = 0 := digitChar_inj hd10 (by norm_num) hchar
    have : n = 0 := by
      have := Nat.ofDigits_digits 10 n
      rw [hdig, hd0] at this
      simpa [Nat.ofDigits] using this.symm
    exact hn this
  intro m n h
  by_cases hm : m = 0 <;> by_cases hn : n = 0
  · rw [hm, hn]
  · subst hm
    exact absurd (by simpa [decimalChars, hn] using h) (fun hh => zeroCase n hn hh)
  · subst hn
    exact absurd (by simpa [decimalChars, hm] using h.symm) (fun hh => zeroCase m hm hh)
  · have h' := h
    simp only [decimalChars, hm, hn, if_false] at h'
    have hrev := map_digitChar_inj (Nat.digits 10 m).reverse (Nat.digits 10 n).reverse
      (fun d hd => Nat.digits_lt_base (by norm_num) (List.mem_reverse.mp hd))
      (fun d hd => Nat.digits_lt_base (by norm_num) (List.mem_reverse.mp hd)) h'
    exact Nat.digits.injective 10 (List.reverse_injective hrev)

theorem tempName_injective : Function.Injective tempName := by
  intro i j h
  have hd := congrArg String.data h
  simp only [tempName, String.data_append] at hd
  exact decimalChars_inj (List.append_cancel_left hd)

/-! ## Allocator facts -/

theorem lookupId_setId_self : ∀ (m : IdMap) (a v : Nat), lookupId (setId m a v) a = some v
  | [], a, v => by simp [setId, lookupId]
  | (k, w) :: rest, a, v => by
      by_cases hk : k = a
      · simp [setId, hk, lookupId]
      · simp [setId, hk, lookupId, lookupId_setId_self rest a v]

theorem lookupId_setId_ne : ∀ (m : IdMap) {a b : Nat} (v : Nat), b ≠ a →
    lookupId (setId m a v) b = lookupId m b
  | [], a, b, v, hab => by simp [setId, lookupId, Ne.symm hab]
  | (k, w) :: rest, a, b, v, hab => by
      by_cases hk : k = a
      · subst hk
        simp [setId, lookupId, Ne.symm hab]
      · simp [setId, hk, lookupId, lookupId_setId_ne rest v hab]

/-- Per-anchor ordinals produced by a run: starting from module state
`m`, the ordinals recorded for anchor `a` are consecutive, beginning at
the counter `m` currently holds for `a` (0 when `a` is absent). -/
theorem allocAll_ordinals : ∀ (anchors : List Nat) (m : IdMap) (a : Nat),
    (((allocAll anchors m).1.filter (fun r => r.scope == a)).map Alloc.ordinal) =
      List.range' ((lookupId m a).getD 0) (anchors.count a)
  | [], m, a => by simp [allocAll]
  | a' :: rest, m, a => by
      by_cases ha : a' = a
      · subst ha
        have ih := allocAll_ordinals rest (setId m a' (((lookupId m a').getD 0) + 1)) a'
        rw [lookupId_setId_self] at ih
        simp only [Option.getD_some] at ih
        simp only [allocAll, List.count_cons_self]
        rw [List.filter_cons_of_pos (by simp), List.map_cons, ih,
          List.range'_succ ((lookupId m a').getD 0) (rest.count a') 1]
      · have ih := allocAll_ordinals rest (setId m a' (((lookupId m a').getD 0) + 1)) a
        rw [lookupId_setId_ne m _ (fun hh => ha hh.symm)] at ih
        simp only [allocAll]
        rw [List.filter_cons_of_neg (by simp [ha]), ih,
          List.count_cons_of_ne (fun hh => ha hh.symm)]

theorem allocAll_name_eq : ∀ (anchors : List Nat) (m : IdMap),
    ∀ r ∈ (allocAll anchors m).1, r.name = tempName r.ordinal
  | [], m => by simp [allocAll]
  | a :: rest, m => by
      intro r hr
      simp only [allocAll, List.mem_cons] at hr
      rcases hr with rfl | hr
      · rfl
      · exact allocAll_name_eq rest _ r hr

/-! ## The rewritten site, named -/

/-- The hoisted declaration built for a validated site (lines 112-129):
`const _genEphemeralObj<id> = { k1: void 0, ... }` with the original key
names in order. -/
def declOf (id : Nat) (props : List Prp) : Stmt :=
  .constDecl (tempName id)
    (.objectLit (props.map fun p => .prop false (.ident (keyNameOf p)) .voidZero))

/-- The call-site hole after the declaration and mutation edits. -/
def rewrittenHole (id : Nat) (props : List Prp) (h : ExprHole) : ExprHole :=
  mutEdit (mutsOf (tempName id) props) (declEdit (declOf id props) h)

/-- On a validated site the callback performs exactly the three edits:
hoist the declaration, insert the mutations, and substitute the bare
identifier for the call. -/
theorem processSite_rewrite (id : Nat) (s : Site) (props : List Prp)
    (hargs : s.args = [.objectLit props])
    (h1 : props.all isObjectProperty = true)
    (h2 : props.all keyIsIdentifier = true) :
    processSite id s =
      ⟨false, [], plugExpr (.ident (tempName id)) (rewrittenHole id props s.hole)⟩ := by
  have hip := initPropsE_of_valid props h2
  simp [processSite, hargs, h1, h2, hip, coerceReplacement, rewrittenHole, declOf]

theorem upOf_mutEdit (muts : List Stmt) (h : ExprHole) :
    upOf (mutEdit muts h) = insertBeforeH muts (upOf h) := by
  obtain ⟨fs, sf, up⟩ := h
  rfl

theorem beforeOf_insertBeforeH (L : List Stmt) (H : StmtHole) :
    beforeOf (insertBeforeH L H) = beforeOf H ++ L := by
  cases H <;> rfl

/-- The declaration edit puts the declaration at the head of the
resolved anchor's body whenever that anchor is a generator function
declaration, whatever the later mutation edit adds elsewhere. -/
theorem ownerFnBody_edits (e : Expr) (decl : Stmt) (muts : List Stmt) (h : ExprHole)
    (fn : String) (hA : anchorKind h = .fdA fn true) :
    ∃ rest, ownerFnBody e (mutEdit muts (declEdit decl h)) = some (decl :: rest) := by
  obtain ⟨fs, sf, up⟩ := h
  cases sf with
  | paramDefault fn' g pn pb pa body =>
      have hg : g = true := by
        simpa [anchorKind] using And.right (by simpa [anchorKind] using hA : fn' = fn ∧ g = true)
      subst hg
      exact ⟨body, rfl⟩
  | exprStmtF =>
      have hup : anchorKindH up = .fdA fn true := by simpa [anchorKind] using hA
      obtain ⟨rest, hr⟩ :=
        ownerFnBodyH_edits decl muts up (applySFrame .exprStmtF (applyEFrames fs e)) fn hup
      refine ⟨rest, ?_⟩
      simp only [declEdit, hup]
      simpa [mutEdit, ownerFnBody] using hr
  | constInit n =>
      have hup : anchorKindH up = .fdA fn true := by simpa [anchorKind] using hA
      obtain ⟨rest, hr⟩ :=
        ownerFnBodyH_edits decl muts up (applySFrame (.constInit n) (applyEFrames fs e)) fn hup
      refine ⟨rest, ?_⟩
      simp only [declEdit, hup]
      simpa [mutEdit, ownerFnBody] using hr
  | returnF =>
      have hup : anchorKindH up = .fdA fn true := by simpa [anchorKind] using hA
      obtain ⟨rest, hr⟩ :=
        ownerFnBodyH_edits decl muts up (applySFrame .returnF (applyEFrames fs e)) fn hup
      refine ⟨rest, ?_⟩
      simp only [declEdit, hup]
      simpa [mutEdit, ownerFnBody] using hr

/-- Away from the generator-through-parameter-defaults corner, the code's
placement for an expression-valued anchor coincides with the
specification's "insert before the anchor's nearest statement ancestor"
rule. -/
theorem declEdit_eq_specC5Edit (decl : Stmt) (h : ExprHole)
    (hA : (∃ g, anchorKind h = .feA g) ∨ anchorKind h = .arrowA)
    (hg : declViaGenParams h = false) :
    declEdit decl h = specC5Edit decl h := by
  obtain ⟨fs, sf, up⟩ := h
  cases sf with
  | paramDefault fn g pn pb pa body =>
      rcases hA with ⟨g', hA⟩ | hA <;> simp [anchorKind] at hA
  | exprStmtF =>
      have hg' : declViaGenParamsH up = false := by simpa [declViaGenParams] using hg
      have hA' : (∃ g, anchorKindH up = .feA g) ∨ anchorKindH up = .arrowA := by
        simpa [anchorKind] using hA
      have hne := declEditH_eq_specC5EditH decl up hg' hA'
      rcases hA' with ⟨g, hup⟩ | hup <;>
        simp [declEdit, specC5Edit, hup, hne]
  | constInit n =>
      have hg' : declViaGenParamsH up = false := by simpa [declViaGenParams] using hg
      have hA' : (∃ g, anchorKindH up = .feA g) ∨ anchorKindH up = .arrowA := by
        simpa [anchorKind] using hA
      have hne := declEditH_eq_specC5EditH decl up hg' hA'
      rcases hA' with ⟨g, hup⟩ | hup <;>
        simp [declEdit, specC5Edit, hup, hne]
  | returnF =>
      have hg' : declViaGenParamsH up = false := by simpa [declViaGenParams] using hg
      have hA' : (∃ g, anchorKindH up = .feA g) ∨ anchorKindH up = .arrowA := by
        simpa [anchorKind] using hA
      have hne := declEditH_eq_specC5EditH decl up hg' hA'
      rcases hA' with ⟨g, hup⟩ | hup <;>
        simp [declEdit, specC5Edit, hup, hne]

/-- Program order of a site whose declaration and mutations were both
inserted before the same statement (the call's statement parent). -/
theorem flatten_insertBefore_declMuts (decl : Stmt) (muts : List Stmt) (fs : List EFrame)
    (sf : SFrame) (up : StmtHole) (e : Expr) :
    ∃ l1 l2,
      flattenStmtList (plugExpr e (.mk fs sf (insertBeforeH muts (insertBeforeH [decl] up)))) =
        l1 ++ .stmt decl :: l2 ∧
      (∀ m ∈ muts, .stmt m ∈ l2) ∧ .expr e ∈ l2 := by
  obtain ⟨A, B, h⟩ :=
    flatten_plugStmts up (([decl] ++ muts) ++ [applySFrame sf (applyEFrames fs e)])
  obtain ⟨dt, hdt⟩ := flattenStmt_head decl
  refine ⟨A,
    dt ++ flattenStmtList muts ++ flattenStmt (applySFrame sf (applyEFrames fs e)) ++ B,
    ?_, ?_, ?_⟩
  · simp only [plugExpr, insertBeforeH_insertBeforeH, plugStmts_insertBeforeH]
    rw [h]
    simp [flattenStmtList, flattenStmtList_append, hdt]
  · intro m hm
    simp [stmt_mem_flattenStmtList hm]
  · simp [expr_mem_flatten_siteStmt fs sf e]

/-! ## Concrete sites used as witnesses and counterexamples -/

/-- A validated call in the position of the `directReturn` fixture:
`function fn(arg) { return ephemeral({foo: arg, moo: "thing"}) }`. -/
def exValidSite : Site :=
  ⟨"test.js - 7:9",
   [.objectLit [.prop false (.ident "foo") (.ident "arg"),
                .prop false (.ident "moo") (.str "thing")]],
   .mk [] .returnF (.fdBody "fn" false [.plain "arg"] [] [] (.program [] []))⟩

/-- A validated call inside a block of a generator function declaration,
as in the `generator` fixture. -/
def exGenSite : Site :=
  ⟨"test.js - 3:10",
   [.objectLit [.prop false (.ident "count") (.ident "i")]],
   .mk [] .exprStmtF (.block [] [] (.fdBody "fn" true [.plain "arg"] [] [] (.program [] [])))⟩

/-- A validated call inside a function expression returned from an outer
function, as in the `nestedFunction` fixture. -/
def exFeSite : Site :=
  ⟨"test.js - 4:4",
   [.objectLit [.prop false (.ident "foo") (.ident "innerArg")]],
   .mk [] .returnF (.feBody false ["innerArg"] [] []
     (.mk [] .returnF (.fdBody "fn" false [.plain "arg"] [] [] (.program [] []))))⟩

/-- An invalid call carrying a spread member, as in the
`spreadProperties` fixture. -/
def exBadSite : Site :=
  ⟨"test.js - 4:9",
   [.objectLit [.prop false (.ident "foo") (.num 2), .spread (.ident "arg")]],
   .mk [] .returnF (.fdBody "fn" false [.plain "arg"] [] [] (.program [] []))⟩

/-- A call whose single member has a computed identifier key,
`ephemeral({[k]: 1})`, at the top level. -/
def exComputedKeySite : Site :=
  ⟨"test.js - 2:9",
   [.objectLit [.prop true (.ident "k") (.num 1)]],
   .mk [] .exprStmtF (.program [] [])⟩

/-- A validated call sitting in a parameter default of a generator
function declaration: `function* g(x = ephemeral({a: 1})) {}`. -/
def exGenParamSite : Site :=
  ⟨"test.js - 1:20",
   [.objectLit [.prop false (.ident "a") (.num 1)]],
   .mk [] (.paramDefault "g" true "x" [] [] []) (.program [] [])⟩

/-- A validated call inside a generator function expression:
`const g = function* () { return ephemeral({a: 1}) }`. -/
def exGenFeSite : Site :=
  ⟨"test.js - 1:30",
   [.objectLit [.prop false (.ident "a") (.num 1)]],
   .mk [] .returnF (.feBody true [] [] [] (.mk [] (.constInit "g") (.program [] [])))⟩

/-- A function expression anchored in a parameter default of a generator
function declaration:
`function* g(f = function () { return ephemeral({a: 1}) }) {}`. -/
def c5Hole : ExprHole :=
  .mk [] .returnF (.feBody false [] [] []
    (.mk [] (.paramDefault "g" true "f" [] [] []) (.program [] [])))

def c5Decl : Stmt := .constDecl "_genEphemeralObj0" (.objectLit [])

/-- The statements of the program body standing before the spine that
holds the call — a probe used to tell two placements apart. -/
def progBeforeOfH : StmtHole → List Stmt
  | .program b _ => b
  | .block _ _ up => progBeforeOfH up
  | .fdBody _ _ _ _ _ up => progBeforeOfH up
  | .feBody _ _ _ _ (.mk _ _ up) => progBeforeOfH up
  | .arrowBody _ _ _ (.mk _ _ up) => progBeforeOfH up

def progBeforeOf : ExprHole → List Stmt
  | .mk _ _ up => progBeforeOfH up

/-- The validation-failure set exactly as claim C4 words it: not exactly
one object-literal argument (`ShapeViolation`), a member that is no
plain property (`PropertyKindViolation`), or a computed or
non-identifier key (`KeyKindViolation`). -/
def specViolation (args : List Expr) : Bool :=
  match args with
  | [.objectLit props] =>
      !(props.all fun p =>
        match p with
        | .prop false (.ident _) _ => true
        | _ => false)
  | _ => true

/-! ## The claims -/

/-- Claim C9: for every call-site ancestor chain containing an ancestor
that satisfies the predicate, `getParentOfType` (and hence
`getInsertScope` and `getStatementParent`, which apply it to the
`isScopeNode` and `isStatementNode` predicates) terminates and returns
the nearest such ancestor; the recursion has no base case, so running
off a chain with no matching ancestor reaches the null parent, modelled
by `none`. -/
theorem c9_getParentOfType_nearest (chain : List PNode) (pred : PNode → Bool) :
    ((∃ p ∈ chain, pred p = true) →
      ∃ l1 p l2, chain = l1 ++ p :: l2 ∧ pred p = true ∧ (∀ q ∈ l1, pred q = false) ∧
        getParentOfType chain pred = some p) ∧
    ((∀ p ∈ chain, pred p = false) → getParentOfType chain pred = none) := by
  induction chain with
  | nil =>
      exact ⟨fun h => absurd h (by simp), fun _ => rfl⟩
  | cons p rest ih =>
      by_cases hp : pred p = true
      · refine ⟨fun _ => ⟨[], p, rest, rfl, hp, by simp, by simp [getParentOfType, hp]⟩, ?_⟩
        intro hall
        have := hall p (List.mem_cons_self p rest)
        rw [hp] at this
        cases this
      · have hp' : pred p = false := by
          cases hpv : pred p
          · rfl
          · exact absurd hpv hp
        constructor
        · rintro ⟨q, hq, hqt⟩
          rcases List.mem_cons.mp hq with rfl | hq'
          · exact absurd hqt hp
          · obtain ⟨l1, p', l2, hc, hpt, hl1, hg⟩ := ih.1 ⟨q, hq', hqt⟩
            refine ⟨p :: l1, p', l2, by rw [hc]; rfl, hpt, ?_,
              by simp [getParentOfType, hp', hg]⟩
            intro q' hq''
            rcases List.mem_cons.mp hq'' with rfl | hmm
            · exact hp'
            · exact hl1 _ hmm
        · intro hall
          simp only [getParentOfType, hp', Bool.false_eq_true, if_false]
          exact ih.2 fun q hq => hall q (List.mem_cons_of_mem _ hq)

/-- Witness for C9 on a concrete three-node ancestor chain with the
statement predicate. -/
theorem c9_getParentOfType_nearest_witness :
    ∃ l1 p l2,
      ([PNode.expr (.num 1), PNode.stmt (.exprStmt (.num 1)), PNode.prog []] : List PNode) =
        l1 ++ p :: l2 ∧ isStatementNode p = true ∧ (∀ q ∈ l1, isStatementNode q = false) ∧
      getParentOfType [PNode.expr (.num 1), PNode.stmt (.exprStmt (.num 1)), PNode.prog []]
        isStatementNode = some p :=
  (c9_getParentOfType_nearest _ isStatementNode).1
    ⟨PNode.stmt (.exprStmt (.num 1)), by simp, rfl⟩

/-- Counterexample for C3 as stated: the ordinal table is module-level
state and is not discarded: after a run that allocated one binding under
anchor 0, the table entering the next run still holds that entry, so the
table is not empty at the start of every run. -/
theorem c3_counterexample : (allocAll [0] ([] : IdMap)).2 ≠ ([] : IdMap) := by
  have hc : (allocAll [0] ([] : IdMap)).2 = [(0, 1)] := rfl
  rw [hc]
  simp

/-- Claim C3 (amended): the ordinal table is a module-level `WeakMap`
that persists across runs rather than being recreated and discarded;
because each run keys it with that run's fresh scope paths, any anchor
absent from the table receives ordinals 0, 1, 2, ... within the run, so
the first binding allocated under any scope anchor still receives
ordinal 0, independent of previous runs. -/
theorem c3_fresh_anchor_ordinal_zero (anchors : List Nat) (m : IdMap) (a : Nat)
    (hfresh : lookupId m a = none) :
    ((allocAll anchors m).1.filter (fun r => r.scope == a)).map Alloc.ordinal =
      List.range (anchors.count a) := by
  rw [allocAll_ordinals, hfresh]
  simp [List.range_eq_range']

/-- Witness for C3: a run of two allocations under anchor 5 starting
from a table that does not know anchor 5. -/
theorem c3_fresh_anchor_ordinal_zero_witness :
    ((allocAll [5, 5] ([(3, 7)] : IdMap)).1.filter (fun r => r.scope == 5)).map Alloc.ordinal =
      List.range (([5, 5] : List Nat).count 5) :=
  c3_fresh_anchor_ordinal_zero [5, 5] [(3, 7)] 5 rfl

/-- Claim C7: `getTempVarName` returns the anchor's current counter (0
for an anchor the table does not know) and then increments it, so within
one run the ordinals under one scope-anchor identity are 0, 1, 2, ... in
visitation order, and no two bindings under the same anchor share an
ordinal or an identifier. -/
theorem c7_allocator_ordinals (a : Nat) (m : IdMap) (anchors : List Nat)
    (hfresh : lookupId m a = none) :
    getTempVarName a m = (tempName 0, setId m a 1) ∧
    ((allocAll anchors m).1.filter (fun r => r.scope == a)).map Alloc.ordinal =
      List.range (anchors.count a) ∧
    (((allocAll anchors m).1.filter (fun r => r.scope == a)).map Alloc.ordinal).Nodup ∧
    (((allocAll anchors m).1.filter (fun r => r.scope == a)).map Alloc.name).Nodup := by
  have h2 : ((allocAll anchors m).1.filter (fun r => r.scope == a)).map Alloc.ordinal =
      List.range (anchors.count a) := by
    rw [allocAll_ordinals, hfresh]
    simp [List.range_eq_range']
  have hnames : ((allocAll anchors m).1.filter (fun r => r.scope == a)).map Alloc.name =
      (((allocAll anchors m).1.filter (fun r => r.scope == a)).map Alloc.ordinal).map
        tempName := by
    rw [List.map_map]
    exact List.map_congr_left fun r hr =>
      allocAll_name_eq anchors m r (List.mem_of_mem_filter hr)
  refine ⟨by simp [getTempVarName, hfresh], h2, ?_, ?_⟩
  · rw [h2]
    exact List.nodup_range _
  · rw [hnames, h2]
    exact (List.nodup_range _).map tempName_injective

/-- Witness for C7: two allocations under anchor 5 on the empty table. -/
theorem c7_allocator_ordinals_witness :
    getTempVarName 5 ([] : IdMap) = (tempName 0, setId [] 5 1) ∧
    ((allocAll [5, 5] ([] : IdMap)).1.filter (fun r => r.scope == 5)).map Alloc.ordinal =
      List.range (([5, 5] : List Nat).count 5) ∧
    (((allocAll [5, 5] ([] : IdMap)).1.filter (fun r => r.scope == 5)).map
      Alloc.ordinal).Nodup ∧
    (((allocAll [5, 5] ([] : IdMap)).1.filter (fun r => r.scope == 5)).map
      Alloc.name).Nodup :=
  c7_allocator_ordinals 5 [] [5, 5] rfl

/-- Claim C2: on every validated marker call the original call
expression is replaced in place by a bare reference to the hoisted
binding's identifier — the `ExpressionStatement` the code passes to
`replaceWith` collapses back to the identifier at an expression slot,
and the output tree is the one obtained by substituting that identifier
at the call's position after the two insertion edits. -/
theorem c2_replacement_is_bare_reference (id : Nat) (s : Site) (props : List Prp)
    (hargs : s.args = [.objectLit props])
    (h1 : props.all isObjectProperty = true)
    (h2 : props.all keyIsIdentifier = true) :
    coerceReplacement (.exprStmt (.ident (tempName id))) = some (.ident (tempName id)) ∧
    (processSite id s).tree =
      plugExpr (.ident (tempName id)) (rewrittenHole id props s.hole) := by
  refine ⟨rfl, ?_⟩
  rw [processSite_rewrite id s props hargs h1 h2]

/-- Witness for C2 at the `directReturn`-shaped site. -/
theorem c2_replacement_is_bare_reference_witness :
    coerceReplacement (.exprStmt (.ident (tempName 0))) = some (.ident (tempName 0)) ∧
    (processSite 0 exValidSite).tree =
      plugExpr (.ident (tempName 0))
        (rewrittenHole 0 [.prop false (.ident "foo") (.ident "arg"),
                          .prop false (.ident "moo") (.str "thing")] exValidSite.hole) :=
  c2_replacement_is_bare_reference 0 exValidSite
    [.prop false (.ident "foo") (.ident "arg"), .prop false (.ident "moo") (.str "thing")]
    rfl rfl rfl

/-- Claim C10: `ephemeral({})` passes all three validation checks, emits
no diagnostic, and is rewritten into a hoisted declaration with zero
fields, zero mutation statements, and the replacement reference. -/
theorem c10_empty_object_literal (id : Nat) (loc : String) (h : ExprHole) :
    validate [.objectLit []] = none ∧
    processSite id ⟨loc, [.objectLit []], h⟩ =
      ⟨false, [], plugExpr (.ident (tempName id)) (rewrittenHole id [] h)⟩ ∧
    declOf id [] = .constDecl (tempName id) (.objectLit []) ∧
    mutsOf (tempName id) [] = [] :=
  ⟨rfl, processSite_rewrite id ⟨loc, [.objectLit []], h⟩ [] rfl rfl rfl, rfl, rfl⟩

/-- Claim C6: for a validated `marker({a: X, b: Y, ...})`, the mutation
statements assign the original value expressions to the binding's fields
in the literal's key order, they are the statements standing immediately
before the statement containing the call, and the hoisted declaration
lists exactly the same field names in the same order, each assigned the
`void 0` placeholder. -/
theorem c6_mutations_and_declaration_shape (id : Nat) (s : Site) (props : List Prp)
    (hargs : s.args = [.objectLit props])
    (h1 : props.all isObjectProperty = true)
    (h2 : props.all keyIsIdentifier = true) :
    mutsOf (tempName id) props = props.map (fun p =>
      .exprStmt (.assign (.member (.ident (tempName id)) (keyOf p)) (valOf p))) ∧
    declOf id props = .constDecl (tempName id)
      (.objectLit (props.map fun p => .prop false (.ident (keyNameOf p)) .voidZero)) ∧
    initPropsE props = some (props.map fun p => .prop false (.ident (keyNameOf p)) .voidZero) ∧
    (∃ c, beforeOf (upOf (rewrittenHole id props s.hole)) =
      c ++ mutsOf (tempName id) props) ∧
    (processSite id s).tree =
      plugExpr (.ident (tempName id)) (rewrittenHole id props s.hole) := by
  refine ⟨rfl, rfl, initPropsE_of_valid props h2, ?_, ?_⟩
  · refine ⟨beforeOf (upOf (declEdit (declOf id props) s.hole)), ?_⟩
    simp [rewrittenHole, upOf_mutEdit, beforeOf_insertBeforeH]
  · rw [processSite_rewrite id s props hargs h1 h2]

/-- Witness for C6 at the `directReturn`-shaped site. -/
theorem c6_mutations_and_declaration_shape_witness :
    mutsOf (tempName 0) [.prop false (.ident "foo") (.ident "arg"),
        .prop false (.ident "moo") (.str "thing")] =
      ([.prop false (.ident "foo") (.ident "arg"),
        .prop false (.ident "moo") (.str "thing")] : List Prp).map (fun p =>
        .exprStmt (.assign (.member (.ident (tempName 0)) (keyOf p)) (valOf p))) ∧
    declOf 0 [.prop false (.ident "foo") (.ident "arg"),
        .prop false (.ident "moo") (.str "thing")] =
      .constDecl (tempName 0)
        (.objectLit (([.prop false (.ident "foo") (.ident "arg"),
          .prop false (.ident "moo") (.str "thing")] : List Prp).map fun p =>
            .prop false (.ident (keyNameOf p)) .voidZero)) ∧
    initPropsE [.prop false (.ident "foo") (.ident "arg"),
        .prop false (.ident "moo") (.str "thing")] =
      some (([.prop false (.ident "foo") (.ident "arg"),
        .prop false (.ident "moo") (.str "thing")] : List Prp).map fun p =>
          .prop false (.ident (keyNameOf p)) .voidZero) ∧
    (∃ c, beforeOf (upOf (rewrittenHole 0 [.prop false (.ident "foo") (.ident "arg"),
        .prop false (.ident "moo") (.str "thing")] exValidSite.hole)) =
      c ++ mutsOf (tempName 0) [.prop false (.ident "foo") (.ident "arg"),
        .prop false (.ident "moo") (.str "thing")]) ∧
    (processSite 0 exValidSite).tree =
      plugExpr (.ident (tempName 0))
        (rewrittenHole 0 [.prop false (.ident "foo") (.ident "arg"),
          .prop false (.ident "moo") (.str "thing")] exValidSite.hole) :=
  c6_mutations_and_declaration_shape 0 exValidSite
    [.prop false (.ident "foo") (.ident "arg"), .prop false (.ident "moo") (.str "thing")]
    rfl rfl rfl

/-- Counterexample for C4 as stated: `ephemeral({[k]: 1})` has a
computed key, a `KeyKindViolation` in the claim's wording, yet the code
checks only the key node's type (`t.isIdentifier(p.key)`), so the call
passes validation: no diagnostic is emitted and the tree is rewritten
rather than left unchanged. -/
theorem c4_counterexample :
    specViolation exComputedKeySite.args = true ∧
    (processSite 0 exComputedKeySite).diags = [] ∧
    (processSite 0 exComputedKeySite).tree ≠
      plugExpr (theCall exComputedKeySite) exComputedKeySite.hole := by
  refine ⟨rfl, rfl, ?_⟩
  intro h
  have hl : ((processSite 0 exComputedKeySite).tree).length = 3 := rfl
  have hr : (plugExpr (theCall exComputedKeySite) exComputedKeySite.hole).length = 1 := rfl
  rw [h, hr] at hl
  exact absurd hl (by decide)

/-- Claim C4 (amended): for every candidate marker call failing one of
the code's three checks (not exactly one object-literal argument; a
member that is no plain property; a key that is not an identifier node —
computed identifier keys pass undetected), exactly one diagnostic is
emitted, the tree is left unchanged at that site, the callback returns
normally rather than throwing, and the traversal goes on to process the
remaining sites. -/
theorem c4_validation_failure_one_diagnostic (id : Nat) (s : Site) (msg : String)
    (hfail : validate s.args = some msg) (rest : List (Nat × Site)) :
    processSite id s = ⟨false, [s.loc ++ " " ++ msg], plugExpr (theCall s) s.hole⟩ ∧
    runSites ((id, s) :: rest) =
      ((s.loc ++ " " ++ msg) :: (runSites rest).1, (runSites rest).2) := by
  have key : processSite id s =
      ⟨false, [s.loc ++ " " ++ msg], plugExpr (theCall s) s.hole⟩ := by
    rcases hs : s.args with _ | ⟨e, _ | ⟨e2, t2⟩⟩
    · rw [hs] at hfail
      simp only [validate, Option.some.injEq] at hfail
      subst hfail
      simp [processSite, hs, diagOf]
    · rw [hs] at hfail
      cases e
      case objectLit props =>
        by_cases hp1 : props.all isObjectProperty = true
        · by_cases hp2 : props.all keyIsIdentifier = true
          · simp [validate, hp1, hp2] at hfail
          · have hp2' : props.all keyIsIdentifier = false := by
              cases hv : props.all keyIsIdentifier
              · rfl
              · exact absurd hv hp2
            simp only [validate, hp1, hp2', Bool.not_true, Bool.not_false, Bool.false_eq_true,
              if_false, if_true, Option.some.injEq] at hfail
            subst hfail
            simp [processSite, hs, hp1, hp2', diagOf]
        · have hp1' : props.all isObjectProperty = false := by
            cases hv : props.all isObjectProperty
            · rfl
            · exact absurd hv hp1
          simp only [validate, hp1', Bool.not_false, if_true, Option.some.injEq] at hfail
          subst hfail
          simp [processSite, hs, hp1', diagOf]
      all_goals
        simp only [validate, Option.some.injEq] at hfail
      all_goals
        subst hfail
      all_goals
        simp [processSite, hs, diagOf]
    · rw [hs] at hfail
      cases e
      all_goals
        simp only [validate, Option.some.injEq] at hfail
      all_goals
        subst hfail
      all_goals
        simp [processSite, hs, diagOf]
  refine ⟨key, ?_⟩
  simp [runSites, key]

/-- Witness for C4 at the spread-member site. -/
theorem c4_validation_failure_one_diagnostic_witness :
    processSite 0 exBadSite =
      ⟨false, [exBadSite.loc ++ " " ++ propKindMsg],
        plugExpr (theCall exBadSite) exBadSite.hole⟩ ∧
    runSites [(0, exBadSite)] =
      ((exBadSite.loc ++ " " ++ propKindMsg) :: (runSites []).1, (runSites []).2) :=
  c4_validation_failure_one_diagnostic 0 exBadSite propKindMsg rfl []

/-- Counterexample for C5 as stated: for a function expression anchored
in a parameter default of a generator function declaration, the
declaration is not inserted before the anchor's nearest statement
ancestor — the `insertNode.generator` branch unshifts it into that
generator's body instead. -/
theorem c5_counterexample :
    (∃ g, anchorKind c5Hole = Anchor.feA g) ∧
    declEdit c5Decl c5Hole ≠ specC5Edit c5Decl c5Hole := by
  refine ⟨⟨false, rfl⟩, ?_⟩
  intro h
  have h0 : progBeforeOf (declEdit c5Decl c5Hole) = [] := rfl
  have h1 : progBeforeOf (specC5Edit c5Decl c5Hole) = [c5Decl] := rfl
  rw [h, h1] at h0
  exact List.cons_ne_nil _ _ h0

/-- Claim C5 (amended): for every validated marker call whose scope
anchor is an expression-valued function (function expression or arrow),
the declaration is inserted immediately before the nearest statement
ancestor of the anchor — as long as that statement is not a generator
function declaration reached through its parameter defaults, in which
case the code unshifts into that generator's body instead. -/
theorem c5_expression_anchor_placement (id : Nat) (s : Site) (props : List Prp)
    (hargs : s.args = [.objectLit props])
    (h1 : props.all isObjectProperty = true)
    (h2 : props.all keyIsIdentifier = true)
    (hA : (∃ g, anchorKind s.hole = .feA g) ∨ anchorKind s.hole = .arrowA)
    (hg : declViaGenParams s.hole = false) :
    declEdit (declOf id props) s.hole = specC5Edit (declOf id props) s.hole ∧
    (processSite id s).tree = plugExpr (.ident (tempName id))
      (mutEdit (mutsOf (tempName id) props) (specC5Edit (declOf id props) s.hole)) := by
  have he := declEdit_eq_specC5Edit (declOf id props) s.hole hA hg
  refine ⟨he, ?_⟩
  rw [processSite_rewrite id s props hargs h1 h2]
  simp [rewrittenHole, he]

/-- Witness for C5 at the `nestedFunction`-shaped site. -/
theorem c5_expression_anchor_placement_witness :
    declEdit (declOf 0 [.prop false (.ident "foo") (.ident "innerArg")]) exFeSite.hole =
      specC5Edit (declOf 0 [.prop false (.ident "foo") (.ident "innerArg")]) exFeSite.hole ∧
    (processSite 0 exFeSite).tree = plugExpr (.ident (tempName 0))
      (mutEdit (mutsOf (tempName 0) [.prop false (.ident "foo") (.ident "innerArg")])
        (specC5Edit (declOf 0 [.prop false (.ident "foo") (.ident "innerArg")])
          exFeSite.hole)) :=
  c5_expression_anchor_placement 0 exFeSite [.prop false (.ident "foo") (.ident "innerArg")]
    rfl rfl rfl (Or.inl ⟨false, rfl⟩) rfl

/-- Counterexample for C1 as stated: a generator function expression is
a generator-style anchor, yet the declaration is not inserted as the
first statement of its body — only generator function declarations get
the unshift treatment, so here the declaration lands before the
`const` statement embedding the function expression. -/
theorem c1_counterexample :
    anchorIsGeneratorStyle (anchorKind exGenFeSite.hole) = true ∧
    ownerFnBody (.ident (tempName 0))
        (rewrittenHole 0 [.prop false (.ident "a") (.num 1)] exGenFeSite.hole) =
      some [.exprStmt (.assign (.member (.ident (tempName 0)) (.ident "a")) (.num 1)),
            .returnStmt (.ident (tempName 0))] ∧
    ([Stmt.exprStmt (.assign (.member (.ident (tempName 0)) (.ident "a")) (.num 1)),
      Stmt.returnStmt (.ident (tempName 0))].head? ≠
        some (declOf 0 [.prop false (.ident "a") (.num 1)])) ∧
    (processSite 0 exGenFeSite).tree = plugExpr (.ident (tempName 0))
      (rewrittenHole 0 [.prop false (.ident "a") (.num 1)] exGenFeSite.hole) := by
  refine ⟨rfl, rfl, by simp [declOf],
    by rw [processSite_rewrite 0 exGenFeSite [.prop false (.ident "a") (.num 1)] rfl rfl rfl]⟩

/-- Claim C1 (amended): for every validated marker call whose resolved
scope anchor is a generator function declaration, the hoisted
declaration is inserted as the first statement of that declaration's
body (not hoisted above the function), so each activation gets its own
object. -/
theorem c1_generator_declaration_unshift (id : Nat) (s : Site) (props : List Prp)
    (fn : String)
    (hargs : s.args = [.objectLit props])
    (h1 : props.all isObjectProperty = true)
    (h2 : props.all keyIsIdentifier = true)
    (hA : anchorKind s.hole = .fdA fn true) :
    ∃ rest, ownerFnBody (.ident (tempName id)) (rewrittenHole id props s.hole) =
        some (declOf id props :: rest) ∧
      (processSite id s).tree =
        plugExpr (.ident (tempName id)) (rewrittenHole id props s.hole) := by
  obtain ⟨rest, hr⟩ := ownerFnBody_edits (.ident (tempName id)) (declOf id props)
    (mutsOf (tempName id) props) s.hole fn hA
  exact ⟨rest, by simpa [rewrittenHole] using hr,
    by rw [processSite_rewrite id s props hargs h1 h2]⟩

/-- Witness for C1 at the `generator`-fixture site. -/
theorem c1_generator_declaration_unshift_witness :
    ∃ rest, ownerFnBody (.ident (tempName 0))
        (rewrittenHole 0 [.prop false (.ident "count") (.ident "i")] exGenSite.hole) =
        some (declOf 0 [.prop false (.ident "count") (.ident "i")] :: rest) ∧
      (processSite 0 exGenSite).tree =
        plugExpr (.ident (tempName 0))
          (rewrittenHole 0 [.prop false (.ident "count") (.ident "i")] exGenSite.hole) :=
  c1_generator_declaration_unshift 0 exGenSite [.prop false (.ident "count") (.ident "i")]
    "fn" rfl rfl rfl rfl

/-- Program order of a site whose declaration was placed by the owner
chain walk and whose mutations sit at the call's statement slot. -/
theorem flatten_muts_declEditH (decl : Stmt) (muts : List Stmt) (e : Expr) (fs : List EFrame)
    (sf : SFrame) (up : StmtHole) (hg' : declViaGenParamsH up = false)
    (hA : anchorKindH up ≠ .progA) :
    ∃ l1 l2,
      flattenStmtList (plugExpr e (.mk fs sf (insertBeforeH muts (declEditH decl up)))) =
        l1 ++ .stmt decl :: l2 ∧
      (∀ m ∈ muts, .stmt m ∈ l2) ∧ .expr e ∈ l2 := by
  have hp : plugExpr e (.mk fs sf (insertBeforeH muts (declEditH decl up))) =
      plugStmts (muts ++ [applySFrame sf (applyEFrames fs e)]) (declEditH decl up) := by
    simp [plugExpr, plugStmts_insertBeforeH]
  rw [hp]
  obtain ⟨l1, l2, heq, hmem⟩ :=
    declEditH_flatten decl up (muts ++ [applySFrame sf (applyEFrames fs e)]) hg' hA
  refine ⟨l1, l2, heq, ?_, ?_⟩
  · intro m hm
    refine hmem _ ?_
    simp [flattenStmtList_append, stmt_mem_flattenStmtList hm]
  · refine hmem _ ?_
    simp [flattenStmtList_append, flattenStmtList, expr_mem_flatten_siteStmt fs sf e]

/-- The statement position the declaration edit produces for a call
whose statement frame is not a parameter default: before the call's own
statement when the anchor is the program, otherwise along the owner
chain. -/
def declTarget (decl : Stmt) (up : StmtHole) : StmtHole :=
  match anchorKindH up with
  | .progA => insertBeforeH [decl] up
  | _ => declEditH decl up

theorem declTarget_progA (decl : Stmt) (up : StmtHole) (h : anchorKindH up = .progA) :
    declTarget decl up = insertBeforeH [decl] up := by
  simp [declTarget, h]

theorem declTarget_of_ne_progA (decl : Stmt) (up : StmtHole)
    (h : anchorKindH up ≠ .progA) : declTarget decl up = declEditH decl up := by
  unfold declTarget
  cases hx : anchorKindH up
  · exact absurd hx h
  all_goals rfl

theorem declEdit_exprStmtF (decl : Stmt) (fs : List EFrame) (up : StmtHole) :
    declEdit decl (.mk fs .exprStmtF up) = .mk fs .exprStmtF (declTarget decl up) := by
  cases hx : anchorKindH up <;> simp [declEdit, declTarget, hx]

theorem declEdit_constInit (decl : Stmt) (fs : List EFrame) (n : String) (up : StmtHole) :
    declEdit decl (.mk fs (.constInit n) up) = .mk fs (.constInit n) (declTarget decl up) := by
  cases hx : anchorKindH up <;> simp [declEdit, declTarget, hx]

theorem declEdit_returnF (decl : Stmt) (fs : List EFrame) (up : StmtHole) :
    declEdit decl (.mk fs .returnF up) = .mk fs .returnF (declTarget decl up) := by
  cases hx : anchorKindH up <;> simp [declEdit, declTarget, hx]

/-- The program-order decomposition for any site whose declaration edit
reduces to `declTarget`, i.e. whose statement frame is not a parameter
default. -/
theorem c8_nonparam (id : Nat) (props : List Prp) (fs : List EFrame) (sf : SFrame)
    (up : StmtHole)
    (hde : declEdit (declOf id props) (.mk fs sf up) =
      .mk fs sf (declTarget (declOf id props) up))
    (hg' : declViaGenParamsH up = false) :
    ∃ l1 l2,
      flattenStmtList
          (plugExpr (.ident (tempName id)) (rewrittenHole id props (.mk fs sf up))) =
        l1 ++ .stmt (declOf id props) :: l2 ∧
      (∀ m ∈ mutsOf (tempName id) props, .stmt m ∈ l2) ∧
      .expr (.ident (tempName id)) ∈ l2 := by
  cases hup : anchorKindH up with
  | progA =>
      have hrh : rewrittenHole id props (.mk fs sf up) =
          .mk fs sf (insertBeforeH (mutsOf (tempName id) props)
            (insertBeforeH [declOf id props] up)) := by
        simp [rewrittenHole, mutEdit, hde, declTarget_progA _ up hup]
      rw [hrh]
      exact flatten_insertBefore_declMuts _ _ _ _ _ _
  | fdA fn g =>
      have hrh : rewrittenHole id props (.mk fs sf up) =
          .mk fs sf (insertBeforeH (mutsOf (tempName id) props)
            (declEditH (declOf id props) up)) := by
        simp [rewrittenHole, mutEdit, hde, declTarget_of_ne_progA _ up (by simp [hup])]
      rw [hrh]
      exact flatten_muts_declEditH _ _ _ _ _ _ hg' (by simp [hup])
  | feA g =>
      have hrh : rewrittenHole id props (.mk fs sf up) =
          .mk fs sf (insertBeforeH (mutsOf (tempName id) props)
            (declEditH (declOf id props) up)) := by
        simp [rewrittenHole, mutEdit, hde, declTarget_of_ne_progA _ up (by simp [hup])]
      rw [hrh]
      exact flatten_muts_declEditH _ _ _ _ _ _ hg' (by simp [hup])
  | arrowA =>
      have hrh : rewrittenHole id props (.mk fs sf up) =
          .mk fs sf (insertBeforeH (mutsOf (tempName id) props)
            (declEditH (declOf id props) up)) := by
        simp [rewrittenHole, mutEdit, hde, declTarget_of_ne_progA _ up (by simp [hup])]
      rw [hrh]
      exact flatten_muts_declEditH _ _ _ _ _ _ hg' (by simp [hup])

/-- Claim C8 (amended): for every fully rewritten marker call — except
when the declaration is unshifted into a generator function declaration
whose parameter defaults hold the call — the hoisted declaration
precedes in program order every mutation statement of its binding and
the replacement reference that uses it. -/
theorem c8_declaration_precedes_uses (id : Nat) (s : Site) (props : List Prp)
    (hargs : s.args = [.objectLit props])
    (h1 : props.all isObjectProperty = true)
    (h2 : props.all keyIsIdentifier = true)
    (hg : declViaGenParams s.hole = false) :
    ∃ l1 l2, flattenStmtList ((processSite id s).tree) =
        l1 ++ .stmt (declOf id props) :: l2 ∧
      (∀ m ∈ mutsOf (tempName id) props, .stmt m ∈ l2) ∧
      .expr (.ident (tempName id)) ∈ l2 := by
  have ht : (processSite id s).tree =
      plugExpr (.ident (tempName id)) (rewrittenHole id props s.hole) := by
    rw [processSite_rewrite id s props hargs h1 h2]
  rw [ht]
  rcases hh : s.hole with ⟨fs, sf, up⟩
  rw [hh] at hg
  cases sf with
  | paramDefault fn g pn pb pa body =>
      have hgf : g = false := by simpa [declViaGenParams] using hg
      subst hgf
      have hrh : rewrittenHole id props (.mk fs (.paramDefault fn false pn pb pa body) up) =
          .mk fs (.paramDefault fn false pn pb pa body)
            (insertBeforeH (mutsOf (tempName id) props)
              (insertBeforeH [declOf id props] up)) := rfl
      rw [hrh]
      exact flatten_insertBefore_declMuts _ _ _ _ _ _
  | exprStmtF =>
      exact c8_nonparam id props fs .exprStmtF up
        (declEdit_exprStmtF (declOf id props) fs up)
        (by simpa [declViaGenParams] using hg)
  | constInit n =>
      exact c8_nonparam id props fs (.constInit n) up
        (declEdit_constInit (declOf id props) fs n up)
        (by simpa [declViaGenParams] using hg)
  | returnF =>
      exact c8_nonparam id props fs .returnF up
        (declEdit_returnF (declOf id props) fs up)
        (by simpa [declViaGenParams] using hg)

/-- Witness for C8 at the `directReturn`-shaped site. -/
theorem c8_declaration_precedes_uses_witness :
    ∃ l1 l2, flattenStmtList ((processSite 0 exValidSite).tree) =
        l1 ++ .stmt (declOf 0 [.prop false (.ident "foo") (.ident "arg"),
          .prop false (.ident "moo") (.str "thing")]) :: l2 ∧
      (∀ m ∈ mutsOf (tempName 0) [.prop false (.ident "foo") (.ident "arg"),
          .prop false (.ident "moo") (.str "thing")], .stmt m ∈ l2) ∧
      .expr (.ident (tempName 0)) ∈ l2 :=
  c8_declaration_precedes_uses 0 exValidSite
    [.prop false (.ident "foo") (.ident "arg"), .prop false (.ident "moo") (.str "thing")]
    rfl rfl rfl rfl

/-- Counterexample for C8 as stated: for
`function* g(x = ephemeral({a: 1})) {}` the declaration is unshifted
into `g`'s body while the mutation statement is inserted before `g` and
the replacement reference stays in the parameter default, so the
declaration does not precede them in program order. -/
theorem c8_counterexample :
    declViaGenParams exGenParamSite.hole = true ∧
    ¬ ∃ l1 l2, flattenStmtList ((processSite 0 exGenParamSite).tree) =
        l1 ++ PNode.stmt (declOf 0 [.prop false (.ident "a") (.num 1)]) :: l2 ∧
      (∀ m ∈ mutsOf (tempName 0) [.prop false (.ident "a") (.num 1)], PNode.stmt m ∈ l2) ∧
      PNode.expr (.ident (tempName 0)) ∈ l2 := by
  refine ⟨rfl, ?_⟩
  rintro ⟨l1, l2, heq, hmut, href⟩
  have heq' :
      ([.stmt (.exprStmt (.assign (.member (.ident (tempName 0)) (.ident "a")) (.num 1))),
        .expr (.assign (.member (.ident (tempName 0)) (.ident "a")) (.num 1)),
        .expr (.member (.ident (tempName 0)) (.ident "a")),
        .expr (.ident (tempName 0)),
        .expr (.ident "a"),
        .expr (.num 1),
        .stmt (.functionDecl "g" true [.withDefault "x" (.ident (tempName 0))]
          [declOf 0 [.prop false (.ident "a") (.num 1)]]),
        .expr (.ident (tempName 0))] : List PNode) ++
        PNode.stmt (declOf 0 [.prop false (.ident "a") (.num 1)]) ::
          ([.expr (.objectLit [.prop false (.ident "a") .voidZero]),
            .expr (.ident "a"),
            .expr .voidZero] : List PNode) =
      l1 ++ PNode.stmt (declOf 0 [.prop false (.ident "a") (.num 1)]) :: l2 := heq
  obtain ⟨hl1, hl2⟩ := append_cons_split_unique _ heq'
    (by simp [declOf]) (by simp [declOf])
  have hm : PNode.stmt (.exprStmt (.assign (.member (.ident (tempName 0)) (.ident "a"))
      (.num 1))) ∈ l2 :=
    hmut _ (List.mem_cons_self _ _)
  rw [hl2] at hm
  simp at hm

end EphemeralPlugin
